import Mathlib

/-!
Verification of the PrivaGlass chat-transcript parsing engine.

This file gives a shallow embedding of the core of the repository:

* `parseWhatsAppStringChunk` (src/services/db.ts / parser.ts): the resumable
  line-oriented parser, including faithful models of the JavaScript regexes
  `MESSAGE_REGEXP`, `ATTACHMENT_REGEXP` and the `SYSTEM_PATTERNS` global
  replacements, with JavaScript's leftmost / greedy / ordered-alternation
  backtracking semantics reproduced by an explicit continuation-passing
  matcher;
* `formatFullDate` (src/components/MessageBubble.tsx): the heuristic date
  interpreter;
* the transcript-selection logic of `extractChatAndMediaFromZip`
  (src/services/db.ts);
* the chunk driver `processInChunks` and the upload flow of
  `handleFileUpload` (src/App.tsx).

Strings are modelled as `List Char` (JavaScript indices over BMP text
coincide with list positions for the inputs involved).  The mutable
`stateTracker` cell of the source, whose current record is aliased by the
arrays already returned, is modelled by the aggregate state `ParseCursor`:
`closed` holds each pushed record with its final field values, `tracker`
holds the open record's current value, and `trackerPushed` records whether
the open record was pushed during the current run (so that mutations of a
record carried over from a previous run are invisible to the current run's
accumulated output, exactly as in the source).
-/

/-! ### JavaScript character classes -/

/-- The JavaScript `\s` class, which is also exactly the set of characters
removed by `String.prototype.trim`. -/
def isJsWs (c : Char) : Bool :=
  let n := c.val.toNat
  n = 32 ∨ n = 9 ∨ n = 10 ∨ n = 11 ∨ n = 12 ∨ n = 13 ∨ n = 160 ∨ n = 0x1680 ∨
    (0x2000 ≤ n ∧ n ≤ 0x200a) ∨ n = 0x2028 ∨ n = 0x2029 ∨ n = 0x202f ∨
    n = 0x205f ∨ n = 0x3000 ∨ n = 0xfeff

/-- JavaScript line terminators, the characters a `.` never matches. -/
def isLineTerm (c : Char) : Bool :=
  let n := c.val.toNat
  n = 10 ∨ n = 13 ∨ n = 0x2028 ∨ n = 0x2029

/-- The `\d` class of JavaScript regexes: exactly the ASCII digits. -/
def isDigitCh (c : Char) : Bool :=
  48 ≤ c.val.toNat ∧ c.val.toNat ≤ 57

/-- The date separator class `[\/\.\-]` of `MESSAGE_REGEXP`. -/
def sepP (c : Char) : Bool :=
  c = '/' ∨ c = '.' ∨ c = '-'

/-- The filename character class `[a-zA-Z0-9._\-]` of `ATTACHMENT_REGEXP`. -/
def fnameChar (c : Char) : Bool :=
  let n := c.val.toNat
  (65 ≤ n ∧ n ≤ 90) ∨ (97 ≤ n ∧ n ≤ 122) ∨ (48 ≤ n ∧ n ≤ 57) ∨
    c = '.' ∨ c = '_' ∨ c = '-'

/-! ### String utilities mirroring JavaScript string methods -/

/-- `String.prototype.trim` on a line of text. -/
def jsTrim (s : List Char) : List Char :=
  ((s.dropWhile isJsWs).reverse.dropWhile isJsWs).reverse

/-- `String.prototype.toLowerCase`, modelled on the ASCII range (all inputs
relevant to the claims are ASCII). -/
def toLowerAscii (s : List Char) : List Char :=
  s.map Char.toLower

/-- `String.prototype.includes` for a fixed needle. -/
def containsSub (needle : List Char) : List Char → Bool
  | [] => needle.isEmpty
  | c :: rest => needle.isPrefixOf (c :: rest) || containsSub needle rest

/-- A case-insensitive prefix test: `pat` must already be lowercase. -/
def ciStartsWith (pat s : List Char) : Bool :=
  toLowerAscii (s.take pat.length) = pat

/-- `String.prototype.replace` with a *string* pattern: remove the first
occurrence of `pat` (JavaScript replaces only the first match of a string
pattern). -/
def replaceFirst (pat : List Char) : List Char → List Char
  | [] => []
  | c :: rest =>
    if pat.isPrefixOf (c :: rest) then (c :: rest).drop pat.length
    else c :: replaceFirst pat rest

/-! ### Backtracking regex combinators

JavaScript regexes use leftmost-first matching with greedy/ordered
backtracking.  Continuation-passing combinators reproduce this exactly:
each combinator tries its alternatives in the engine's preference order and
falls through to the next alternative when the continuation (the rest of
the pattern) fails, so the most recent choice point is always the first to
be revisited. -/

/-- Match exactly `n` characters satisfying `p`, returning the consumed
characters and the rest. -/
def takeCount (p : Char → Bool) : Nat → List Char → Option (List Char × List Char)
  | 0, s => some ([], s)
  | _ + 1, [] => none
  | n + 1, c :: s =>
    if p c then (takeCount p n s).map (fun pr => (c :: pr.1, pr.2)) else none

/-- Try the repeat counts in `js` (in order), running the continuation `k`
on the consumed/remaining split for the first count that lets the rest of
the pattern succeed. -/
def tryCountsAux {R : Type} (p : Char → Bool) (s : List Char)
    (k : List Char → List Char → Option R) : List Nat → Option R
  | [] => none
  | j :: js =>
    match takeCount p j s with
    | some pr =>
      match k pr.1 pr.2 with
      | some r => some r
      | none => tryCountsAux p s k js
    | none => tryCountsAux p s k js

/-- The list `[hi, hi-1, ..., lo]` (empty when `hi < lo`): the preference
order of a greedy bounded repetition. -/
def countsDesc (lo : Nat) : Nat → List Nat
  | 0 => if lo = 0 then [0] else []
  | h + 1 => if h + 1 < lo then [] else (h + 1) :: countsDesc lo h

/-- Greedy `p*`. -/
def tryStar {R : Type} (p : Char → Bool) (s : List Char)
    (k : List Char → List Char → Option R) : Option R :=
  tryCountsAux p s k (countsDesc 0 (s.takeWhile p).length)

/-- Greedy `p+`. -/
def tryPlus {R : Type} (p : Char → Bool) (s : List Char)
    (k : List Char → List Char → Option R) : Option R :=
  tryCountsAux p s k (countsDesc 1 (s.takeWhile p).length)

/-- A single mandatory character from a class. -/
def matchCharC {R : Type} (p : Char → Bool) (s : List Char)
    (k : List Char → List Char → Option R) : Option R :=
  match s with
  | [] => none
  | c :: r => if p c then k [c] r else none

/-- Exactly `n` characters from a class (`p{n}`), no choice point. -/
def matchCount {R : Type} (p : Char → Bool) (n : Nat) (s : List Char)
    (k : List Char → List Char → Option R) : Option R :=
  match takeCount p n s with
  | some pr => k pr.1 pr.2
  | none => none

/-- Greedy optional character (`p?`): try consuming it, then try skipping. -/
def tryOptChar {R : Type} (p : Char → Bool) (s : List Char)
    (k : List Char → List Char → Option R) : Option R :=
  match s with
  | [] => k [] []
  | c :: r =>
    if p c then
      match k [c] r with
      | some res => some res
      | none => k [] (c :: r)
    else k [] (c :: r)

/-- Greedy optional seconds group `(?::\d{2})?`. -/
def trySeconds {R : Type} (s : List Char)
    (k : List Char → List Char → Option R) : Option R :=
  match s with
  | ':' :: d1 :: d2 :: r =>
    if isDigitCh d1 ∧ isDigitCh d2 then
      match k [':', d1, d2] r with
      | some res => some res
      | none => k [] (':' :: d1 :: d2 :: r)
    else k [] (':' :: d1 :: d2 :: r)
  | s' => k [] s'

/-- Greedy optional meridiem group `(?:AM|PM|am|pm)?` under the `i` flag. -/
def tryAmPm {R : Type} (s : List Char)
    (k : List Char → List Char → Option R) : Option R :=
  match s with
  | c1 :: c2 :: r =>
    if (c1.toLower = 'a' ∨ c1.toLower = 'p') ∧ c2.toLower = 'm' then
      match k [c1, c2] r with
      | some res => some res
      | none => k [] (c1 :: c2 :: r)
    else k [] (c1 :: c2 :: r)
  | s' => k [] s'

/-! ### The header regex `MESSAGE_REGEXP`

`/^\[?(\d{1,4}[\/\.\-]\d{1,4}[\/\.\-]\d{1,4},?\s\d{1,2}:\d{2}(?::\d{2})?\s?(?:AM|PM|am|pm)?)\]?[\s\-]*([^:]+):\s(.*)$/i`

`matchHeader` returns the three captures (timestamp, author, body) of
`line.match(MESSAGE_REGEXP)` or `none`. -/

/-- Result of a successful header match: the three capture groups. -/
abbrev HeaderCaps := List Char × List Char × List Char

/-- The part of `MESSAGE_REGEXP` after the first digit group: returns the
rest of capture group 1 together with groups 2 and 3. -/
def mhTail (s1 : List Char) : Option HeaderCaps :=
  matchCharC sepP s1 (fun c1 s2 =>
  tryCountsAux isDigitCh s2 (fun d2 s3 =>
  matchCharC sepP s3 (fun c2 s4 =>
  tryCountsAux isDigitCh s4 (fun d3 s5 =>
  tryOptChar (fun c => c = ',') s5 (fun cm s6 =>
  matchCharC isJsWs s6 (fun w1 s7 =>
  tryCountsAux isDigitCh s7 (fun hh s8 =>
  matchCharC (fun c => c = ':') s8 (fun co s9 =>
  matchCount isDigitCh 2 s9 (fun mm s10 =>
  trySeconds s10 (fun sec s11 =>
  tryOptChar isJsWs s11 (fun sp s12 =>
  tryAmPm s12 (fun ap s13 =>
  tryOptChar (fun c => c = ']') s13 (fun _ s14 =>
  tryStar (fun c => isJsWs c ∨ c = '-') s14 (fun _ s15 =>
  tryPlus (fun c => ¬ (c = ':')) s15 (fun author s16 =>
  matchCharC (fun c => c = ':') s16 (fun _ s17 =>
  matchCharC isJsWs s17 (fun _ s18 =>
  if s18.all (fun c => ¬ isLineTerm c) then
    some (c1 ++ d2 ++ c2 ++ d3 ++ cm ++ w1 ++ hh ++ co ++ mm ++ sec ++ sp ++ ap,
      author, s18)
  else none))))))))))) [2, 1]))) [4, 3, 2, 1])) [4, 3, 2, 1])

/-- `line.match(MESSAGE_REGEXP)`: the optional opening bracket, the first
1-4 digit group, then the rest of the pattern. -/
def matchHeader (line : List Char) : Option HeaderCaps :=
  tryOptChar (fun c => c = '[') line (fun _ s0 =>
  tryCountsAux isDigitCh s0 (fun d1 s1 =>
    (mhTail s1).map (fun r => (d1 ++ r.1, r.2.1, r.2.2))) [4, 3, 2, 1])

/-! ### The attachment regex `ATTACHMENT_REGEXP`

`/([a-zA-Z0-9._\-]+\.(?:jpg|jpeg|png|webp|gif|heic|mp4|opus|m4a|wav|pdf|sticker|doc|docx|xls|xlsx|txt))/gi`

`line.match(...)[0]` is the leftmost match; within a position the stem is
greedy and the extension alternation is tried in source order. -/

/-- The allow-listed media extensions, in the alternation order of the
source regex. -/
def extList : List (List Char) :=
  ["jpg".toList, "jpeg".toList, "png".toList, "webp".toList, "gif".toList,
   "heic".toList, "mp4".toList, "opus".toList, "m4a".toList, "wav".toList,
   "pdf".toList, "sticker".toList, "doc".toList, "docx".toList,
   "xls".toList, "xlsx".toList, "txt".toList]

/-- First extension (in alternation order) matching case-insensitively at
the start of `r`; returns its length. -/
def extAt (r : List Char) : Option Nat :=
  extList.findSome? (fun e => if ciStartsWith e r then some e.length else none)

/-- Match `ATTACHMENT_REGEXP` anchored at the start of `s`, returning the
matched substring (original casing). -/
def matchAttachmentAt (s : List Char) : Option (List Char) :=
  tryPlus fnameChar s (fun stem r =>
    match r with
    | '.' :: r2 =>
      match extAt r2 with
      | some n => some (stem ++ '.' :: r2.take n)
      | none => none
    | _ => none)

/-- The leftmost `ATTACHMENT_REGEXP` match in a line (`mediaMatch[0]`). -/
def firstAttachment : List Char → Option (List Char)
  | [] => none
  | c :: rest =>
    match matchAttachmentAt (c :: rest) with
    | some m => some m
    | none => firstAttachment rest

/-! ### `SYSTEM_PATTERNS` and the body-cleaning pipeline

`SYSTEM_PATTERNS = [/\(file attached\)/gi, /<attached:?\s*.*?>/gi,
/media omitted/gi, /\[.*?\]/g]`, each applied with a global
remove-all-matches `replace`. -/

/-- Lowercased literal `(file attached)`. -/
def fileAttachedL : List Char := "(file attached)".toList

/-- Lowercased literal `media omitted`. -/
def mediaOmittedL : List Char := "media omitted".toList

/-- Match `/\(file attached\)/i` at the start of `s` (length of match). -/
def mFileAttached (s : List Char) : Option Nat :=
  if ciStartsWith fileAttachedL s then some fileAttachedL.length else none

/-- Match `/media omitted/i` at the start of `s`. -/
def mMediaOmitted (s : List Char) : Option Nat :=
  if ciStartsWith mediaOmittedL s then some mediaOmittedL.length else none

/-- Match `/<attached:?\s*.*?>/i` at the start of `s`.  After the literal
`<attached`, the greedy optional colon and greedy whitespace run are
consumed, then the lazy `.*?` reaches the first `>` provided no line
terminator intervenes (shrinking the whitespace run can never rescue a
failed match, since the freed characters still separate `.*?` from the
same first `>`). -/
def mAttachedTag (s : List Char) : Option Nat :=
  if ciStartsWith ("<attached".toList) s then
    let t := s.drop 9
    let cLen : Nat := match t with | ':' :: _ => 1 | _ => 0
    let t2 := t.drop cLen
    let w := (t2.takeWhile isJsWs).length
    let t3 := t2.drop w
    let j := (t3.takeWhile (fun c => c != '>')).length
    if j < t3.length ∧ (t3.take j).all (fun c => ¬ isLineTerm c) then
      some (9 + cLen + w + j + 1)
    else none
  else none

/-- Match `/\[.*?\]/` at the start of `s`: a literal `[`, then lazily up to
the first `]`, with no line terminator in between. -/
def mBracket (s : List Char) : Option Nat :=
  match s with
  | '[' :: t =>
    let j := (t.takeWhile (fun c => c != ']')).length
    if j < t.length ∧ (t.take j).all (fun c => ¬ isLineTerm c) then
      some (j + 2)
    else none
  | _ => none

/-- The scan of a global `replace(pattern, '')`, with `fuel` bounding the
number of steps.  Each step either drops a (non-empty) match or keeps one
character, so `s.length` fuel always reaches the end of the string; the
`fuel = 0` state is then only reachable with `s = []`. -/
def replaceAllF (m : List Char → Option Nat) : Nat → List Char → List Char
  | 0, s => s
  | _ + 1, [] => []
  | fuel + 1, c :: rest =>
    match m (c :: rest) with
    | some n =>
      if 0 < n then replaceAllF m fuel ((c :: rest).drop n)
      else c :: replaceAllF m fuel rest
    | none => c :: replaceAllF m fuel rest

/-- Global `replace(pattern, '')`: scan left to right, removing each
(non-overlapping) match.  The patterns above never match the empty string;
a zero-length match result is treated as no match to keep the function
total. -/
def replaceAll (m : List Char → Option Nat) (s : List Char) : List Char :=
  replaceAllF m s.length s

/-- `SYSTEM_PATTERNS.forEach(regex => body = body.replace(regex, ''))`:
the four global replacements applied in array order. -/
def sysStrip (s : List Char) : List Char :=
  replaceAll mBracket (replaceAll mMediaOmitted
    (replaceAll mAttachedTag (replaceAll mFileAttached s)))

/-- The trailing cleanup class `[:\s\-]` of the final `replace`. -/
def edgeP (c : Char) : Bool :=
  c = ':' ∨ isJsWs c ∨ c = '-'

/-- `replace(/^[:\s\-]+|[:\s\-]+$/g, '')`: strip the maximal leading and
trailing runs of colons, whitespace and hyphens. -/
def stripEdges (s : List Char) : List Char :=
  ((s.dropWhile edgeP).reverse.dropWhile edgeP).reverse

/-- `.replace(fileName, '').trim().replace(/^[:\s\-]+|[:\s\-]+$/g, '')`,
the shared tail of the body/continuation cleaning pipeline. -/
def cleanBody (fn : List Char) (b : List Char) : List Char :=
  stripEdges (jsTrim (replaceFirst fn b))

/-! ### Records, parser state and `parseWhatsAppStringChunk` -/

/-- The `ChatMessage` fields produced by the parser (the optional UI-side
`isMe` flag is never set at parse time and is omitted). -/
structure ChatMessage where
  timestamp : List Char
  sender : List Char
  text : List Char
  isViewOnce : Bool
  mediaUrl : Option (List Char)
deriving DecidableEq, Repr

/-- JavaScript truthiness of a `string | undefined` value. -/
def truthy : Option (List Char) → Bool
  | none => false
  | some s => !s.isEmpty

/-- `Map.prototype.get` on the filename→locator table. -/
def mapGet (am : List (List Char × List Char)) (k : List Char) :
    Option (List Char) :=
  (am.find? (fun pr => decide (pr.1 = k))).map (fun pr => pr.2)

/-- JavaScript `a || b` on `string | undefined` values. -/
def jsOrStr (a b : Option (List Char)) : Option (List Char) :=
  match a with
  | some s => if s.isEmpty then b else some s
  | none => b

/-- `assetMap.get(fileName) || assetMap.get(fileName.toLowerCase())`. -/
def lookupUrl (am : List (List Char × List Char)) (fn : List Char) :
    Option (List Char) :=
  jsOrStr (mapGet am fn) (mapGet am (toLowerAscii fn))

/-- Aggregate parser state: see the file header.  `closed` are the pushed
records no longer open; `tracker` is `stateTracker.current`; when
`trackerPushed` is set the open record is the (shared, still mutating)
last element of the array pushed during the current run. -/
structure ParseCursor where
  closed : List ChatMessage
  tracker : Option ChatMessage
  trackerPushed : Bool
deriving DecidableEq, Repr

/-- The record sequence accumulated during the current run, with every
record at its final (post-mutation) field values. -/
def observedMsgs (st : ParseCursor) : List ChatMessage :=
  st.closed ++ (if st.trackerPushed then st.tracker.toList else [])

/-- `parsedMessages.push(message); stateTracker.current = message`. -/
def pushMsg (m : ChatMessage) (st : ParseCursor) : ParseCursor :=
  { closed := st.closed ++ (if st.trackerPushed then st.tracker.toList else []),
    tracker := some m,
    trackerPushed := true }

/-- Lowercased literal `view once`. -/
def viewOnceL : List Char := "view once".toList

/-- The record constructed for a header line from the captures and the
(optional) attachment filename found in the line. -/
def buildHeaderMsg (am : List (List Char × List Char))
    (fnO : Option (List Char)) (ts author bodyContent : List Char) :
    ChatMessage :=
  let body0 := jsTrim bodyContent
  match fnO with
  | some fn =>
    { timestamp := jsTrim ts, sender := jsTrim author,
      text := cleanBody fn (sysStrip body0),
      isViewOnce := containsSub viewOnceL (toLowerAscii bodyContent),
      mediaUrl := lookupUrl am fn }
  | none =>
    { timestamp := jsTrim ts, sender := jsTrim author, text := body0,
      isViewOnce := containsSub viewOnceL (toLowerAscii bodyContent),
      mediaUrl := none }

/-- `text += (text ? '\n' : '') + cleaned`, applied only `if (cleaned)`. -/
def appendResidual (old add : List Char) : List Char :=
  if add.isEmpty then old
  else old ++ (if old.isEmpty then add else '\n' :: add)

/-- The per-line body of the parser loop: classify the (trimmed, non-empty)
line as a header or a continuation and update the state as the source
does. -/
def processLine (am : List (List Char × List Char)) (line : List Char)
    (st : ParseCursor) : ParseCursor :=
  let fnO := (firstAttachment line).map jsTrim
  match matchHeader line with
  | some (ts, author, bodyContent) =>
    pushMsg (buildHeaderMsg am fnO ts author bodyContent) st
  | none =>
    match st.tracker with
    | none => st
    | some cur =>
      match fnO with
      | some fn =>
        let url := lookupUrl am fn
        let cur1 := if truthy url then { cur with mediaUrl := url } else cur
        let cleaned := cleanBody fn (sysStrip line)
        let cur2 := { cur1 with text := appendResidual cur1.text cleaned }
        { st with tracker := some cur2 }
      | none =>
        let cur2 := { cur with text := cur.text ++ '\n' :: line }
        { st with tracker := some cur2 }

/-- `content.indexOf('\n', i)`, with the source's `-1 ↦ totalLength`
adjustment already applied. -/
def findNl (c : List Char) (i : Nat) : Nat :=
  i + ((c.drop i).takeWhile (fun ch => ch != '\n')).length

/-- `content.substring(a, b)` for `a ≤ b`. -/
def subStr (c : List Char) (a b : Nat) : List Char :=
  (c.drop a).take (b - a)

/-- The `while (currentPointer < totalLength && linesProcessed < limit)`
loop.  `rem` is the remaining line budget `limit - linesProcessed`; empty
(post-trim) lines are skipped without consuming budget.  `fuel` bounds the
number of iterations: the pointer strictly advances every iteration, so
`c.length - ptr` fuel always suffices, and once the fuel invariant
`c.length - ptr ≤ fuel` holds, the `fuel = 0` state is only reachable with
`ptr ≥ c.length`, where the loop would exit anyway. -/
def chunkLoopF (c : List Char) (am : List (List Char × List Char)) :
    Nat → Nat → Nat → ParseCursor → Nat × ParseCursor
  | 0, ptr, _, st => (ptr, st)
  | fuel + 1, ptr, rem, st =>
    if ptr < c.length ∧ 0 < rem then
      let nb := findNl c ptr
      let line := jsTrim (subStr c ptr nb)
      if line.isEmpty then chunkLoopF c am fuel (nb + 1) rem st
      else chunkLoopF c am fuel (nb + 1) (rem - 1) (processLine am line st)
    else (ptr, st)

/-- `parseWhatsAppStringChunk(content, offset, limit, assetMap,
stateTracker)`: returns `nextCharIndex` and the updated aggregate state
(whose growth since the call is the returned `messages` array, at final
field values). -/
def parseWhatsAppStringChunk (c : List Char) (offset limit : Nat)
    (am : List (List Char × List Char)) (st : ParseCursor) :
    Nat × ParseCursor :=
  chunkLoopF c am (c.length - offset) offset limit st

/-! ### Drivers (src/App.tsx) -/

/-- Repeated slice calls, each resuming from the returned `nextCharIndex`
with the next budget in `ls`, sharing the cursor state. -/
def runSlices (c : List Char) (am : List (List Char × List Char)) :
    List Nat → Nat → ParseCursor → Nat × ParseCursor
  | [], pos, st => (pos, st)
  | l :: ls, pos, st =>
    let r := parseWhatsAppStringChunk c pos l am st
    runSlices c am ls r.1 r.2

/-- The `parseNext` loop of `processInChunks`: parse a 15000-line slice,
then continue (via `requestAnimationFrame`) while the position is short of
the end.  `fuel` bounds the number of scheduled continuations; every slice
strictly advances the position, so `c.length` fuel always suffices. -/
def parseNextFuel (c : List Char) (am : List (List Char × List Char)) :
    Nat → Nat → ParseCursor → Nat × ParseCursor
  | 0, pos, st => (pos, st)
  | fuel + 1, pos, st =>
    let r := parseWhatsAppStringChunk c pos 15000 am st
    if r.1 < c.length then parseNextFuel c am fuel r.1 r.2 else r

/-- The parsing part of `handleFileUpload` for a fresh (uncached) text:
a first slice of 1000 lines from offset 0, then `processInChunks` if the
text is not exhausted.  `lastMsg` is `lastMessageRef.current` at entry —
the source never resets it between uploads — and the per-run accumulation
(`accumulatedRef`) starts empty, so the initial cursor has an empty
`closed` list and `trackerPushed := false`.  Returns the accumulated
records, the final `lastMessageRef.current` and the final position. -/
def handleFileUploadModel (text : List Char)
    (am : List (List Char × List Char)) (lastMsg : Option ChatMessage) :
    List ChatMessage × Option ChatMessage × Nat :=
  let st0 : ParseCursor := { closed := [], tracker := lastMsg, trackerPushed := false }
  let r1 := parseWhatsAppStringChunk text 0 1000 am st0
  if r1.1 < text.length then
    let r2 := parseNextFuel text am text.length r1.1 r1.2
    (observedMsgs r2.2, r2.2.tracker, r2.1)
  else (observedMsgs r1.2, r1.2.tracker, r1.1)

/-! ### The date interpreter `formatFullDate`
(src/components/MessageBubble.tsx) -/

/-- `dateStr.split(/[\/\.\-]/)`. -/
def splitOnSeps : List Char → List (List Char)
  | [] => [[]]
  | c :: r =>
    match splitOnSeps r with
    | t :: ts => if sepP c then [] :: t :: ts else (c :: t) :: ts
    | [] => [[c]]

/-- The value of the digit word `ds`. -/
def digitsVal (ds : List Char) : Int :=
  ds.foldl (fun a c => a * 10 + ((c.val.toNat : Int) - 48)) 0

/-- JavaScript `parseInt` in base 10: skip leading whitespace, read an
optional sign and a maximal digit run; `none` is `NaN`.  (The `0x` hex
prefix cannot occur in the date tokens involved.) -/
def parseIntJS (s : List Char) : Option Int :=
  let t := s.dropWhile isJsWs
  let sign : Int := match t with | '-' :: _ => -1 | _ => 1
  let t2 := match t with | '-' :: r => r | '+' :: r => r | _ => t
  let ds := t2.takeWhile isDigitCh
  if ds.isEmpty then none else some (sign * digitsVal ds)

/-- `NaN`-aware `x > b` (`NaN > b` is false). -/
def jsGtNum (a : Option Int) (b : Int) : Bool :=
  match a with
  | some x => b < x
  | none => false

/-- `NaN`-aware decrement. -/
def subOne : Option Int → Option Int
  | some x => some (x - 1)
  | none => none

/-- The day/month detection of `formatFullDate`: `p0 > 12` makes `p0` the
day; else `p1 > 12` makes `p1` the day; else day-first.  Returns
`(day, monthIdx)` with the month index already decremented. -/
def resolveDayMonth (p0 p1 : Option Int) : Option Int × Option Int :=
  if jsGtNum p0 12 then (p0, subOne p1)
  else if jsGtNum p1 12 then (p1, subOne p0)
  else (p0, subOne p1)

/-- The fixed ordered month-name list of `formatFullDate`. -/
def monthsL : List (List Char) :=
  ["January".toList, "February".toList, "March".toList, "April".toList,
   "May".toList, "June".toList, "July".toList, "August".toList,
   "September".toList, "October".toList, "November".toList,
   "December".toList]

/-- `months[monthIdx] || parts[1]`: the name at an in-range index (every
name is non-empty, hence truthy), otherwise the fallback token — which the
source always takes from `parts[1]`. -/
def monthNameOf (mi : Option Int) (fallback : List Char) : List Char :=
  match mi with
  | some i =>
    if h : 0 ≤ i ∧ i < 12 then monthsL.getD i.toNat [] else fallback
  | none => fallback

/-- Template rendering of a `NaN`-aware number. -/
def numStrJS : Option Int → List Char
  | some n => (toString n).toList
  | none => "NaN".toList

/-- `formatFullDate(dateStr)` with the ambient current year passed
explicitly. -/
def formatFullDate (currentYear : Int) (dateStr : List Char) : List Char :=
  if dateStr.isEmpty then []
  else
    let parts := (splitOnSeps dateStr).map jsTrim
    if parts.length < 2 then dateStr
    else
      let p0 := parseIntJS (parts.getD 0 [])
      let p1 := parseIntJS (parts.getD 1 [])
      let dm := resolveDayMonth p0 p1
      let yearTok := parts.getD 2 []
      let year : Option Int :=
        if yearTok.isEmpty then some currentYear
        else
          match parseIntJS yearTok with
          | some y => some (if y < 100 then y + 2000 else y)
          | none => none
      numStrJS dm.1 ++ ' ' :: (monthNameOf dm.2 (parts.getD 1 []) ++ ' ' :: numStrJS year)

/-! ### Transcript selection in `extractChatAndMediaFromZip`
(src/services/db.ts) -/

/-- A zip entry: its (full) name and whether it is a directory. -/
structure ZEntry where
  name : List Char
  dir : Bool
deriving DecidableEq, Repr

/-- The `.txt`, non-directory entries (`textEntries` of the source), in
archive order. -/
def txtEntries (entries : List ZEntry) : List ZEntry :=
  entries.filter (fun f => (".txt".toList).isSuffixOf f.name ∧ ¬ f.dir)

/-- Stable insertion of an entry into a list sorted by descending name
length (ties keep existing elements first). -/
def insertByLen (x : ZEntry) : List ZEntry → List ZEntry
  | [] => [x]
  | y :: ys =>
    if x.name.length < y.name.length then y :: insertByLen x ys
    else x :: y :: ys

/-- `textEntries.sort((a, b) => b.name.length - a.name.length)`: a stable
descending sort by name length. -/
def sortByLenDesc : List ZEntry → List ZEntry
  | [] => []
  | x :: xs => insertByLen x (sortByLenDesc xs)

/-- `zip.file("_chat.txt")`: the non-directory entry with exactly the
canonical iOS name. -/
def findExactChat (entries : List ZEntry) : Option ZEntry :=
  entries.find? (fun f => decide (f.name = "_chat.txt".toList) ∧ ¬ f.dir)

/-- `textEntries.find(f => f.name.toLowerCase().includes('chat'))`. -/
def findChatNamed (entries : List ZEntry) : Option ZEntry :=
  (txtEntries entries).find?
    (fun f => containsSub ("chat".toList) (toLowerAscii f.name))

/-- The transcript-entry selection of `extractChatAndMediaFromZip`:
`zip.file("_chat.txt") || textEntries.find(...) || textEntries.sort(...)[0]`;
`none` is the `throw new Error("No chat logs found in archive.")` case. -/
def selectChatFile (entries : List ZEntry) : Option ZEntry :=
  match findExactChat entries with
  | some e => some e
  | none =>
    match findChatNamed entries with
    | some e => some e
    | none => (sortByLenDesc (txtEntries entries)).head?

/-! ### Helper lemmas -/

theorem mem_insertByLen {x y : ZEntry} :
    ∀ {l : List ZEntry}, y ∈ insertByLen x l ↔ y = x ∨ y ∈ l := by
  intro l
  induction l with
  | nil => simp [insertByLen]
  | cons z zs ih =>
    by_cases hlt : x.name.length < z.name.length
    · simp only [insertByLen, if_pos hlt, List.mem_cons, ih]
      tauto
    · simp only [insertByLen, if_neg hlt, List.mem_cons]

theorem mem_sortByLenDesc {y : ZEntry} :
    ∀ {l : List ZEntry}, y ∈ sortByLenDesc l ↔ y ∈ l := by
  intro l
  induction l with
  | nil => simp [sortByLenDesc]
  | cons z zs ih => simp [sortByLenDesc, mem_insertByLen, ih]

theorem insertByLen_ne_nil {x : ZEntry} :
    ∀ {l : List ZEntry}, insertByLen x l ≠ [] := by
  intro l
  cases l with
  | nil => simp [insertByLen]
  | cons z zs =>
    by_cases hlt : x.name.length < z.name.length <;>
      simp [insertByLen, hlt]

theorem sortByLenDesc_eq_nil_iff {l : List ZEntry} :
    sortByLenDesc l = [] ↔ l = [] := by
  cases l with
  | nil => simp [sortByLenDesc]
  | cons z zs =>
    simp only [sortByLenDesc]
    constructor
    · intro h
      exact absurd h insertByLen_ne_nil
    · intro h
      exact absurd h (by simp)

theorem insertByLen_pairwise {x : ZEntry} {l : List ZEntry}
    (h : l.Pairwise (fun a b => b.name.length ≤ a.name.length)) :
    (insertByLen x l).Pairwise (fun a b => b.name.length ≤ a.name.length) := by
  induction l with
  | nil => simp [insertByLen]
  | cons z zs ih =>
    rcases List.pairwise_cons.mp h with ⟨hz, hzs⟩
    by_cases hlt : x.name.length < z.name.length
    · rw [insertByLen, if_pos hlt]
      refine List.pairwise_cons.mpr ⟨?_, ih hzs⟩
      intro y hy
      rcases mem_insertByLen.mp hy with rfl | hy'
      · omega
      · exact hz y hy'
    · rw [insertByLen, if_neg hlt]
      refine List.pairwise_cons.mpr ⟨?_, h⟩
      intro y hy
      rcases List.mem_cons.mp hy with rfl | hy'
      · omega
      · have := hz y hy'
        omega

theorem sortByLenDesc_pairwise :
    ∀ l : List ZEntry,
      (sortByLenDesc l).Pairwise (fun a b => b.name.length ≤ a.name.length) := by
  intro l
  induction l with
  | nil => simp [sortByLenDesc]
  | cons z zs ih => exact insertByLen_pairwise ih

theorem sortByLenDesc_head_max {l : List ZEntry} {e : ZEntry} {rest : List ZEntry}
    (h : sortByLenDesc l = e :: rest) :
    ∀ x ∈ l, x.name.length ≤ e.name.length := by
  intro x hx
  have hmem : x ∈ sortByLenDesc l := mem_sortByLenDesc.mpr hx
  rw [h] at hmem
  rcases List.mem_cons.mp hmem with rfl | hx'
  · exact Nat.le_refl _
  · have hp := sortByLenDesc_pairwise l
    rw [h] at hp
    exact (List.pairwise_cons.mp hp).1 x hx'

/-! ### C5 -/

/-- C5: the date interpreter resolves two leading numeric tokens `(a, b)`
by the stated precedence — `a > 12` makes `a` the day and `b` the month;
else `b > 12` makes `b` the day and `a` the month; else day-first — and on
the concrete pairs `(13, 5)`, `(5, 13)`, `(5, 6)` yields day/month-index
`13/4`, `13/4` and `5/5`, rendered by `formatFullDate` as `13 May 2023`,
`13 May 2023` and `5 June 2023`. -/
theorem c5_day_month_precedence :
    (∀ a b : Int, 12 < a →
      resolveDayMonth (some a) (some b) = (some a, some (b - 1)))
    ∧ (∀ a b : Int, a ≤ 12 → 12 < b →
      resolveDayMonth (some a) (some b) = (some b, some (a - 1)))
    ∧ (∀ a b : Int, a ≤ 12 → b ≤ 12 →
      resolveDayMonth (some a) (some b) = (some a, some (b - 1)))
    ∧ resolveDayMonth (some 13) (some 5) = (some 13, some 4)
    ∧ resolveDayMonth (some 5) (some 13) = (some 13, some 4)
    ∧ resolveDayMonth (some 5) (some 6) = (some 5, some 5)
    ∧ formatFullDate 2024 ("13/5/23".toList) = "13 May 2023".toList
    ∧ formatFullDate 2024 ("5/13/23".toList) = "13 May 2023".toList
    ∧ formatFullDate 2024 ("5/6/23".toList) = "5 June 2023".toList := by
  refine ⟨?_, ?_, ?_, by decide, by decide, by decide, by decide, by decide,
    by decide⟩
  · intro a b h
    simp [resolveDayMonth, jsGtNum, subOne, h]
  · intro a b h1 h2
    have ha : ¬ (12 < a) := by omega
    simp [resolveDayMonth, jsGtNum, subOne, ha, h2]
  · intro a b h1 h2
    have ha : ¬ (12 < a) := by omega
    have hb : ¬ (12 < b) := by omega
    simp [resolveDayMonth, jsGtNum, subOne, ha, hb]

/-- Witness for C5: the three precedence branches applied at concrete
inputs. -/
theorem c5_day_month_precedence_witness :
    (12 < (14 : Int) ∧ resolveDayMonth (some 14) (some 2) = (some 14, some 1))
    ∧ ((3 : Int) ≤ 12 ∧ 12 < (14 : Int) ∧
      resolveDayMonth (some 3) (some 14) = (some 14, some 2))
    ∧ ((3 : Int) ≤ 12 ∧ (4 : Int) ≤ 12 ∧
      resolveDayMonth (some 3) (some 4) = (some 3, some 3)) :=
  ⟨⟨by norm_num, c5_day_month_precedence.1 14 2 (by norm_num)⟩,
   ⟨by norm_num, by norm_num,
     c5_day_month_precedence.2.1 3 14 (by norm_num) (by norm_num)⟩,
   ⟨by norm_num, by norm_num,
     c5_day_month_precedence.2.2.1 3 4 (by norm_num) (by norm_num)⟩⟩

/-! ### C6 -/

/-- C6 counterexample: on the date string `0/13/23` the second token 13
exceeds 12, so the month is taken from the *first* numeric token `0`; the
resolved month index -1 is out of range, but the output echoes the day
token `13` (always `parts[1]`), not the token `0` that was resolved as the
month — the output is `13 13 2023`, not the claimed `13 0 2023`. -/
theorem c6_month_echo_counterexample :
    formatFullDate 2024 ("0/13/23".toList) = "13 13 2023".toList ∧
    formatFullDate 2024 ("0/13/23".toList) ≠ "13 0 2023".toList :=
  ⟨by decide, by decide⟩

/-- C6 (amended): month names come from a fixed ordered list of twelve
names, and an out-of-range (or NaN) month index falls back, without
failing, to echoing the *second* numeric token (`parts[1]`) verbatim —
which is the token resolved as the month except in the branch where the
month was taken from the first token, where it is the day token instead
(witnessed by `0/13/23 ↦ 13 13 2023`). -/
theorem c6_month_names_amended :
    monthsL.length = 12
    ∧ (∀ fallback, monthNameOf none fallback = fallback)
    ∧ (∀ (i : Int) fallback, i < 0 ∨ 12 ≤ i →
        monthNameOf (some i) fallback = fallback)
    ∧ (∀ (i : Int) fallback, 0 ≤ i → i < 12 →
        monthNameOf (some i) fallback = monthsL.getD i.toNat [])
    ∧ formatFullDate 2024 ("0/13/23".toList) = "13 13 2023".toList := by
  refine ⟨by decide, fun fallback => rfl, ?_, ?_, by decide⟩
  · intro i fallback h
    have hn : ¬ (0 ≤ i ∧ i < 12) := by omega
    simp [monthNameOf, hn]
  · intro i fallback h1 h2
    simp [monthNameOf, h1, h2]

/-- Witness for C6 (amended): out-of-range and in-range month indices at
concrete inputs. -/
theorem c6_month_names_amended_witness :
    ((-1 : Int) < 0 ∨ (12 : Int) ≤ -1)
    ∧ monthNameOf (some (-1)) ("13".toList) = "13".toList
    ∧ ((0 : Int) ≤ 4 ∧ (4 : Int) < 12)
    ∧ monthNameOf (some 4) ("5".toList) = monthsL.getD 4 [] :=
  ⟨Or.inl (by norm_num),
   c6_month_names_amended.2.2.1 (-1) ("13".toList) (Or.inl (by norm_num)),
   ⟨by norm_num, by norm_num⟩,
   c6_month_names_amended.2.2.2.1 4 ("5".toList) (by norm_num) (by norm_num)⟩

/-! ### C7 -/

/-- C7: the transcript entry of a bundle is selected by priority — the
non-directory entry named exactly `_chat.txt`, else the first `.txt` entry
whose name contains `chat` case-insensitively, else a `.txt` entry of
maximal name length — and the selection fails (the
`NoTranscriptFound` / `No chat logs found in archive.` throw) exactly when
the bundle has no `.txt` entry at all. -/
theorem c7_transcript_selection :
    ∀ entries : List ZEntry,
      (selectChatFile entries = none ↔ txtEntries entries = [])
      ∧ (∀ e, findExactChat entries = some e → selectChatFile entries = some e)
      ∧ (findExactChat entries = none →
          ∀ e, findChatNamed entries = some e → selectChatFile entries = some e)
      ∧ (findExactChat entries = none → findChatNamed entries = none →
          txtEntries entries ≠ [] →
          ∃ e, selectChatFile entries = some e ∧ e ∈ txtEntries entries ∧
            ∀ x ∈ txtEntries entries, x.name.length ≤ e.name.length) := by
  intro entries
  refine ⟨⟨?_, ?_⟩, ?_, ?_, ?_⟩
  · intro h
    unfold selectChatFile at h
    cases hE : findExactChat entries with
    | some e => rw [hE] at h; exact absurd h (by simp)
    | none =>
      rw [hE] at h
      cases hC : findChatNamed entries with
      | some e => rw [hC] at h; exact absurd h (by simp)
      | none =>
        rw [hC] at h
        have hs : sortByLenDesc (txtEntries entries) = [] :=
          List.head?_eq_none_iff.mp h
        exact sortByLenDesc_eq_nil_iff.mp hs
  · intro h
    have hE : findExactChat entries = none := by
      cases hE : findExactChat entries with
      | none => rfl
      | some e =>
        have hpred := List.find?_some hE
        have hmem := List.mem_of_find?_eq_some hE
        simp only [Bool.decide_and, Bool.and_eq_true, decide_eq_true_eq] at hpred
        have htxt : e ∈ txtEntries entries := by
          refine List.mem_filter.mpr ⟨hmem, ?_⟩
          rw [decide_eq_true_eq]
          refine ⟨?_, hpred.2⟩
          rw [hpred.1]
          decide
        rw [h] at htxt
        exact absurd htxt (by simp)
    have hC : findChatNamed entries = none := by
      unfold findChatNamed
      rw [h]
      rfl
    unfold selectChatFile
    rw [hE, hC]
    have : sortByLenDesc (txtEntries entries) = [] := by
      rw [h]
      rfl
    rw [this]
    rfl
  · intro e hE
    unfold selectChatFile
    rw [hE]
  · intro hE e hC
    unfold selectChatFile
    rw [hE, hC]
  · intro hE hC htxt
    have hs : sortByLenDesc (txtEntries entries) ≠ [] := by
      intro hnil
      exact htxt (sortByLenDesc_eq_nil_iff.mp hnil)
    cases hsort : sortByLenDesc (txtEntries entries) with
    | nil => exact absurd hsort hs
    | cons e rest =>
      refine ⟨e, ?_, ?_, sortByLenDesc_head_max hsort⟩
      · unfold selectChatFile
        rw [hE, hC, hsort]
        rfl
      · have : e ∈ sortByLenDesc (txtEntries entries) := by
          rw [hsort]; exact List.mem_cons_self _ _
        exact mem_sortByLenDesc.mp this

/-- Witness for C7: the exact-name priority applied at a concrete
two-entry bundle. -/
theorem c7_transcript_selection_witness :
    findExactChat [⟨"a.txt".toList, false⟩, ⟨"_chat.txt".toList, false⟩] =
      some ⟨"_chat.txt".toList, false⟩ ∧
    selectChatFile [⟨"a.txt".toList, false⟩, ⟨"_chat.txt".toList, false⟩] =
      some ⟨"_chat.txt".toList, false⟩ :=
  ⟨by decide,
   (c7_transcript_selection _).2.1 ⟨"_chat.txt".toList, false⟩ (by decide)⟩

/-! ### C8 -/

/-- C8: for every header line, the record the parser emits carries
`isViewOnce` equal to whether the *raw* captured body (capture group 3,
before any trimming or marker/filename stripping) contains the substring
`view once` case-insensitively; since the flag is computed from the raw
capture alone, the stripping performed afterwards never changes it. -/
theorem c8_view_once_from_raw_body :
    ∀ am line st ts author body,
      matchHeader line = some (ts, author, body) →
      ∃ m, (processLine am line st).tracker = some m ∧
        observedMsgs (processLine am line st) = observedMsgs st ++ [m] ∧
        m.isViewOnce = containsSub viewOnceL (toLowerAscii body) := by
  intro am line st ts author body h
  refine ⟨buildHeaderMsg am ((firstAttachment line).map jsTrim) ts author body,
    ?_, ?_, ?_⟩
  · simp [processLine, h, pushMsg]
  · simp [processLine, h, pushMsg, observedMsgs]
  · cases hf : (firstAttachment line).map jsTrim <;> simp [buildHeaderMsg, hf]

/-- Witness for C8: a concrete header line whose raw body contains
`View Once`; the emitted record has the flag set (and, per the separate
evaluation below, its `text` is stripped down to `View Once` while the
flag was computed before stripping). -/
theorem c8_view_once_from_raw_body_witness :
    matchHeader ("[1/2/23, 10:00] A: photo.jpg (file attached) View Once".toList) =
      some ("1/2/23, 10:00".toList, "A".toList,
        "photo.jpg (file attached) View Once".toList) ∧
    (∃ m, (processLine [("photo.jpg".toList, "u9".toList)]
        ("[1/2/23, 10:00] A: photo.jpg (file attached) View Once".toList)
        ⟨[], none, false⟩).tracker = some m ∧
      observedMsgs (processLine [("photo.jpg".toList, "u9".toList)]
        ("[1/2/23, 10:00] A: photo.jpg (file attached) View Once".toList)
        ⟨[], none, false⟩) = observedMsgs ⟨[], none, false⟩ ++ [m] ∧
      m.isViewOnce = containsSub viewOnceL
        (toLowerAscii ("photo.jpg (file attached) View Once".toList))) :=
  ⟨by decide,
   c8_view_once_from_raw_body [("photo.jpg".toList, "u9".toList)]
     ("[1/2/23, 10:00] A: photo.jpg (file attached) View Once".toList)
     ⟨[], none, false⟩ ("1/2/23, 10:00".toList) ("A".toList)
     ("photo.jpg (file attached) View Once".toList) (by decide)⟩

/-! ### C3 -/

/-- C3 counterexample: a record whose `mediaUrl` was set to `u1` by its
header line has it *replaced* by `u2` when a later continuation line
carries another resolvable filename — the continuation branch assigns
`stateTracker.current.mediaUrl = url` without checking whether it is
already set.  With a budget of 1 line the record holds `u1`; after the
continuation line it holds `u2`. -/
theorem c3_media_replaced_counterexample :
    (observedMsgs (parseWhatsAppStringChunk
        ("[1/2/23, 10:00] A: x a.jpg\nb.png".toList) 0 1
        [("a.jpg".toList, "u1".toList), ("b.png".toList, "u2".toList)]
        ⟨[], none, false⟩).2).map (fun m => m.mediaUrl) = [some ("u1".toList)]
    ∧ (observedMsgs (parseWhatsAppStringChunk
        ("[1/2/23, 10:00] A: x a.jpg\nb.png".toList) 0 2
        [("a.jpg".toList, "u1".toList), ("b.png".toList, "u2".toList)]
        ⟨[], none, false⟩).2).map (fun m => m.mediaUrl) = [some ("u2".toList)]
    ∧ some ("u2".toList) ≠ some ("u1".toList) :=
  ⟨by decide, by decide, by decide⟩

/-- C3 (amended): on a continuation line, the open record's `mediaUrl` is
assigned the resolved locator whenever the line's filename resolves in the
table — even if already set, so a later continuation line can *replace*
it; it is never cleared to absent (an unresolvable filename, or a line
with no filename, leaves it unchanged), and the closed records are never
touched. -/
theorem c3_media_set_amended :
    ∀ am line st cur, st.tracker = some cur → matchHeader line = none →
      ∃ cur2, (processLine am line st).tracker = some cur2 ∧
        (processLine am line st).closed = st.closed ∧
        (processLine am line st).trackerPushed = st.trackerPushed ∧
        (cur.mediaUrl ≠ none → cur2.mediaUrl ≠ none) ∧
        (firstAttachment line = none → cur2.mediaUrl = cur.mediaUrl) ∧
        (∀ raw, firstAttachment line = some raw →
          truthy (lookupUrl am (jsTrim raw)) = true →
          cur2.mediaUrl = lookupUrl am (jsTrim raw)) ∧
        (∀ raw, firstAttachment line = some raw →
          truthy (lookupUrl am (jsTrim raw)) = false →
          cur2.mediaUrl = cur.mediaUrl) := by
  intro am line st cur ht hm
  cases hf : firstAttachment line with
  | none =>
    refine ⟨⟨cur.timestamp, cur.sender, cur.text ++ '\n' :: line,
      cur.isViewOnce, cur.mediaUrl⟩, ?_, ?_, ?_, ?_, ?_, ?_, ?_⟩ <;>
      simp [processLine, hm, ht, hf]
  | some raw =>
    by_cases hu : truthy (lookupUrl am (jsTrim raw)) = true
    · refine ⟨⟨cur.timestamp, cur.sender,
        appendResidual cur.text (cleanBody (jsTrim raw) (sysStrip line)),
        cur.isViewOnce, lookupUrl am (jsTrim raw)⟩, ?_, ?_, ?_, ?_, ?_, ?_, ?_⟩ <;>
        simp [processLine, hm, ht, hf, hu]
      intro hcur
      cases hurl : lookupUrl am (jsTrim raw) with
      | none => rw [hurl] at hu; exact absurd hu (by simp [truthy])
      | some u => simp [hurl]
    · have hu' : truthy (lookupUrl am (jsTrim raw)) = false := by
        revert hu
        cases truthy (lookupUrl am (jsTrim raw)) <;> simp
      refine ⟨⟨cur.timestamp, cur.sender,
        appendResidual cur.text (cleanBody (jsTrim raw) (sysStrip line)),
        cur.isViewOnce, cur.mediaUrl⟩, ?_, ?_, ?_, ?_, ?_, ?_, ?_⟩ <;>
        simp [processLine, hm, ht, hf, hu']

/-- Witness for C3 (amended): a continuation line carrying a resolvable
filename replaces the already-set locator with the resolved one. -/
theorem c3_media_set_amended_witness :
    (∃ cur2, (processLine [("b.png".toList, "u2".toList)] ("b.png".toList)
        ⟨[], some ⟨"t".toList, "A".toList, "x".toList, false,
          some ("u1".toList)⟩, true⟩).tracker = some cur2 ∧
      (processLine [("b.png".toList, "u2".toList)] ("b.png".toList)
        ⟨[], some ⟨"t".toList, "A".toList, "x".toList, false,
          some ("u1".toList)⟩, true⟩).closed = [] ∧
      (processLine [("b.png".toList, "u2".toList)] ("b.png".toList)
        ⟨[], some ⟨"t".toList, "A".toList, "x".toList, false,
          some ("u1".toList)⟩, true⟩).trackerPushed = true ∧
      ((⟨"t".toList, "A".toList, "x".toList, false,
          some ("u1".toList)⟩ : ChatMessage).mediaUrl ≠ none →
        cur2.mediaUrl ≠ none) ∧
      (firstAttachment ("b.png".toList) = none →
        cur2.mediaUrl = some ("u1".toList)) ∧
      (∀ raw, firstAttachment ("b.png".toList) = some raw →
        truthy (lookupUrl [("b.png".toList, "u2".toList)] (jsTrim raw)) = true →
        cur2.mediaUrl = lookupUrl [("b.png".toList, "u2".toList)] (jsTrim raw)) ∧
      (∀ raw, firstAttachment ("b.png".toList) = some raw →
        truthy (lookupUrl [("b.png".toList, "u2".toList)] (jsTrim raw)) = false →
        cur2.mediaUrl = some ("u1".toList))) :=
  c3_media_set_amended [("b.png".toList, "u2".toList)] ("b.png".toList)
    ⟨[], some ⟨"t".toList, "A".toList, "x".toList, false, some ("u1".toList)⟩,
      true⟩
    ⟨"t".toList, "A".toList, "x".toList, false, some ("u1".toList)⟩
    (by decide) (by decide)

/-! ### C10 -/

/-- C10 counterexample: on the continuation line `pic.jpg pic.jpg` with an
empty filename table, `mediaUrl` is indeed left unchanged (absent), but
only the *first* occurrence of the filename is removed
(`String.prototype.replace` with a string pattern replaces one match), so
the record's text ends up containing `pic.jpg` — the claim that the
filename text never appears in the record's text is false. -/
theorem c10_filename_in_text_counterexample :
    (observedMsgs (parseWhatsAppStringChunk
        ("[1/2/23, 10:00] A: hi\npic.jpg pic.jpg".toList) 0 2 []
        ⟨[], none, false⟩).2).map
      (fun m => (m.mediaUrl, containsSub ("pic.jpg".toList) m.text,
        m.text)) =
      [(none, true, "hi\npic.jpg".toList)] := by decide

/-- C10 (amended): on a continuation line containing an attachment
filename that resolves under neither the verbatim nor the lowercased key,
the open record's `mediaUrl` is left unchanged, yet the system markers are
still stripped and the *first occurrence* of the filename substring is
still removed before any residual text is appended — the filename can
therefore still reach the record's text when the marker-stripped line
contains it more than once. -/
theorem c10_unresolvable_strip_amended :
    ∀ am line st cur raw, st.tracker = some cur → matchHeader line = none →
      firstAttachment line = some raw →
      mapGet am (jsTrim raw) = none →
      mapGet am (toLowerAscii (jsTrim raw)) = none →
      ∃ cur2, (processLine am line st).tracker = some cur2 ∧
        (processLine am line st).closed = st.closed ∧
        cur2.mediaUrl = cur.mediaUrl ∧
        cur2.text = appendResidual cur.text
          (cleanBody (jsTrim raw) (sysStrip line)) := by
  intro am line st cur raw ht hm hf h1 h2
  have hu : lookupUrl am (jsTrim raw) = none := by
    simp [lookupUrl, jsOrStr, h1, h2]
  refine ⟨⟨cur.timestamp, cur.sender,
    appendResidual cur.text (cleanBody (jsTrim raw) (sysStrip line)),
    cur.isViewOnce, cur.mediaUrl⟩, ?_, ?_, ?_, ?_⟩ <;>
    simp [processLine, hm, ht, hf, hu, truthy]

/-- Witness for C10 (amended): the duplicate-filename continuation line
with an empty table — `mediaUrl` stays absent and the cleaned residual
(with one `pic.jpg` removed) is appended. -/
theorem c10_unresolvable_strip_amended_witness :
    (∃ cur2, (processLine [] ("pic.jpg pic.jpg".toList)
        ⟨[], some ⟨"t".toList, "A".toList, "hi".toList, false, none⟩,
          true⟩).tracker = some cur2 ∧
      (processLine [] ("pic.jpg pic.jpg".toList)
        ⟨[], some ⟨"t".toList, "A".toList, "hi".toList, false, none⟩,
          true⟩).closed = [] ∧
      cur2.mediaUrl = (⟨"t".toList, "A".toList, "hi".toList, false,
        none⟩ : ChatMessage).mediaUrl ∧
      cur2.text = appendResidual ("hi".toList)
        (cleanBody (jsTrim ("pic.jpg".toList))
          (sysStrip ("pic.jpg pic.jpg".toList)))) :=
  c10_unresolvable_strip_amended [] ("pic.jpg pic.jpg".toList)
    ⟨[], some ⟨"t".toList, "A".toList, "hi".toList, false, none⟩, true⟩
    ⟨"t".toList, "A".toList, "hi".toList, false, none⟩ ("pic.jpg".toList)
    (by decide) (by decide) (by decide) (by decide) (by decide)

/-! ### C4 -/

/-- C4: the claim is that `lastMessageRef.current` is empty at the first
`parseWhatsAppStringChunk` call of every run, so no continuation line of a
new transcript can be appended to a record of a previous transcript.  The
source never resets `lastMessageRef` in `handleFileUpload`, so after
uploading transcript A the ref still holds A's last record, and a leading
continuation line of transcript B is appended to that stale record (third
conjunct) instead of being dropped; B's accumulated output silently loses
the line (fourth conjunct).  This evaluation exhibits the leak. -/
theorem c4_cursor_not_reset_bug :
    (handleFileUploadModel ("1/1/23, 1:00 - A: hi".toList) [] none).2.1 =
      some ⟨"1/1/23, 1:00".toList, "A".toList, "hi".toList, false, none⟩
    ∧ (handleFileUploadModel ("1/1/23, 1:00 - A: hi".toList) [] none).2.1 ≠
      none
    ∧ processLine [] ("orphan".toList)
        ⟨[], some ⟨"1/1/23, 1:00".toList, "A".toList, "hi".toList, false,
          none⟩, false⟩ =
      ⟨[], some ⟨"1/1/23, 1:00".toList, "A".toList, "hi\norphan".toList,
        false, none⟩, false⟩
    ∧ (handleFileUploadModel ("orphan\n1/1/23, 2:00 - B: yo".toList) []
        (some ⟨"1/1/23, 1:00".toList, "A".toList, "hi".toList, false,
          none⟩)).1 =
      [⟨"1/1/23, 2:00".toList, "B".toList, "yo".toList, false, none⟩] :=
  ⟨by decide, by decide, by decide, by decide⟩

/-! ### C2 -/

/-- C2 counterexample: the line `1/1/11, 1:11 : hi` is a valid header —
after the timestamp fails to extend over the following space, the greedy
`[\s\-]*` run backtracks to empty and the author group `[^:]+` matches the
single space — so the parser emits a record whose sender trims to the
empty string (while its timestamp is non-empty). -/
theorem c2_empty_sender_counterexample :
    (observedMsgs (parseWhatsAppStringChunk ("1/1/11, 1:11 : hi".toList)
        0 10 [] ⟨[], none, false⟩).2).map (fun m => m.sender) = [[]]
    ∧ (observedMsgs (parseWhatsAppStringChunk ("1/1/11, 1:11 : hi".toList)
        0 10 [] ⟨[], none, false⟩).2).map (fun m => m.timestamp) =
      ["1/1/11, 1:11".toList] :=
  ⟨by decide, by decide⟩

/-! ### Loop lemmas for the chunk parser -/

theorem findNl_ge (c : List Char) (i : Nat) : i ≤ findNl c i :=
  Nat.le_add_right _ _

theorem findNl_le (c : List Char) (i : Nat) (h : i ≤ c.length) :
    findNl c i ≤ c.length := by
  unfold findNl
  have h1 : (((c.drop i).takeWhile (fun ch => ch != '\n'))).length ≤
      (c.drop i).length :=
    List.Sublist.length_le (List.takeWhile_sublist _)
  have h2 : (c.drop i).length = c.length - i := List.length_drop i c
  omega

theorem findNl_gt_of_line {c : List Char} {i : Nat}
    (h : (jsTrim (subStr c i (findNl c i))).isEmpty = false) :
    i < findNl c i := by
  by_contra hle
  have hii : findNl c i = i := Nat.le_antisymm (by omega) (findNl_ge c i)
  rw [hii] at h
  simp [subStr, jsTrim] at h

theorem chunkLoopF_exit {c : List Char} {am : List (List Char × List Char)}
    {ptr rem : Nat} {st : ParseCursor}
    (h : ¬ (ptr < c.length ∧ 0 < rem)) :
    ∀ fuel, chunkLoopF c am fuel ptr rem st = (ptr, st) := by
  intro fuel
  cases fuel with
  | zero => rfl
  | succ f => simp [chunkLoopF, h]

theorem chunkLoopF_fuel (c : List Char) (am : List (List Char × List Char)) :
    ∀ f1 f2 ptr rem st, c.length - ptr ≤ f1 → c.length - ptr ≤ f2 →
      chunkLoopF c am f1 ptr rem st = chunkLoopF c am f2 ptr rem st := by
  intro f1
  induction f1 with
  | zero =>
    intro f2 ptr rem st h1 h2
    have hp : ¬ (ptr < c.length ∧ 0 < rem) := by omega
    rw [chunkLoopF_exit hp 0, chunkLoopF_exit hp f2]
  | succ f ih =>
    intro f2 ptr rem st h1 h2
    by_cases hp : ptr < c.length ∧ 0 < rem
    · cases f2 with
      | zero => omega
      | succ f2' =>
        have hge := findNl_ge c ptr
        simp only [chunkLoopF, if_pos hp]
        by_cases hline : (jsTrim (subStr c ptr (findNl c ptr))).isEmpty = true
        · simp only [hline, if_true]
          exact ih f2' (findNl c ptr + 1) rem st (by omega) (by omega)
        · simp only [hline, if_false]
          exact ih f2' (findNl c ptr + 1) (rem - 1) _ (by omega) (by omega)
    · rw [chunkLoopF_exit hp, chunkLoopF_exit hp]

theorem chunkLoopF_ge (c : List Char) (am : List (List Char × List Char)) :
    ∀ fuel ptr rem st, ptr ≤ (chunkLoopF c am fuel ptr rem st).1 := by
  intro fuel
  induction fuel with
  | zero => intro ptr rem st; exact Nat.le_refl _
  | succ f ih =>
    intro ptr rem st
    by_cases hp : ptr < c.length ∧ 0 < rem
    · have hge := findNl_ge c ptr
      simp only [chunkLoopF, if_pos hp]
      by_cases hline : (jsTrim (subStr c ptr (findNl c ptr))).isEmpty = true
      · simp only [hline, if_true]
        exact Nat.le_trans (by omega) (ih (findNl c ptr + 1) rem st)
      · simp only [hline, if_false]
        exact Nat.le_trans (by omega) (ih (findNl c ptr + 1) (rem - 1) _)
    · rw [chunkLoopF_exit hp]

theorem chunkLoopF_le (c : List Char) (am : List (List Char × List Char)) :
    ∀ fuel ptr rem st, ptr ≤ c.length + 1 →
      (chunkLoopF c am fuel ptr rem st).1 ≤ c.length + 1 := by
  intro fuel
  induction fuel with
  | zero => intro ptr rem st h; exact h
  | succ f ih =>
    intro ptr rem st h
    by_cases hp : ptr < c.length ∧ 0 < rem
    · have hnb := findNl_le c ptr (by omega)
      simp only [chunkLoopF, if_pos hp]
      by_cases hline : (jsTrim (subStr c ptr (findNl c ptr))).isEmpty = true
      · simp only [hline, if_true]
        exact ih (findNl c ptr + 1) rem st (by omega)
      · simp only [hline, if_false]
        exact ih (findNl c ptr + 1) (rem - 1) _ (by omega)
    · rw [chunkLoopF_exit hp]
      exact h

theorem chunkLoopF_complete (c : List Char)
    (am : List (List Char × List Char)) :
    ∀ fuel ptr rem st, c.length - ptr ≤ fuel → c.length - ptr ≤ rem →
      c.length ≤ (chunkLoopF c am fuel ptr rem st).1 := by
  intro fuel
  induction fuel with
  | zero =>
    intro ptr rem st h1 h2
    have hp : ¬ (ptr < c.length ∧ 0 < rem) := by omega
    rw [chunkLoopF_exit hp]
    omega
  | succ f ih =>
    intro ptr rem st h1 h2
    by_cases hlen : ptr < c.length
    · have hp : ptr < c.length ∧ 0 < rem := ⟨hlen, by omega⟩
      have hge := findNl_ge c ptr
      simp only [chunkLoopF, if_pos hp]
      by_cases hline : (jsTrim (subStr c ptr (findNl c ptr))).isEmpty = true
      · simp only [hline, if_true]
        exact ih (findNl c ptr + 1) rem st (by omega) (by omega)
      · simp only [hline, if_false]
        have hgt : ptr < findNl c ptr :=
          findNl_gt_of_line (by revert hline; cases h :
            (jsTrim (subStr c ptr (findNl c ptr))).isEmpty <;> simp)
        exact ih (findNl c ptr + 1) (rem - 1) _ (by omega) (by omega)
    · have hp : ¬ (ptr < c.length ∧ 0 < rem) := by omega
      rw [chunkLoopF_exit hp]
      omega

theorem chunkLoopF_add (c : List Char) (am : List (List Char × List Char)) :
    ∀ fuel ptr rem1 rem2 st, c.length - ptr ≤ fuel →
      chunkLoopF c am fuel ptr (rem1 + rem2) st =
        chunkLoopF c am (c.length - (chunkLoopF c am fuel ptr rem1 st).1)
          (chunkLoopF c am fuel ptr rem1 st).1 rem2
          (chunkLoopF c am fuel ptr rem1 st).2 := by
  intro fuel
  induction fuel with
  | zero =>
    intro ptr rem1 rem2 st h1
    have hp : ¬ (ptr < c.length ∧ 0 < rem1) := by omega
    have hp2 : ¬ (ptr < c.length ∧ 0 < rem1 + rem2) := by omega
    rw [chunkLoopF_exit hp 0, chunkLoopF_exit hp2 0]
    exact (chunkLoopF_exit (by omega) _).symm
  | succ f ih =>
    intro ptr rem1 rem2 st h1
    by_cases hlen : ptr < c.length
    · by_cases hr1 : 0 < rem1
      · have hp : ptr < c.length ∧ 0 < rem1 := ⟨hlen, hr1⟩
        have hp2 : ptr < c.length ∧ 0 < rem1 + rem2 := ⟨hlen, by omega⟩
        have hge := findNl_ge c ptr
        conv_lhs => rw [chunkLoopF]
        rw [if_pos hp2]
        conv_rhs => rw [chunkLoopF]
        rw [if_pos hp]
        by_cases hline : (jsTrim (subStr c ptr (findNl c ptr))).isEmpty = true
        · simp only [hline, if_true]
          exact ih (findNl c ptr + 1) rem1 rem2 st (by omega)
        · simp only [hline, if_false]
          have heq : rem1 + rem2 - 1 = (rem1 - 1) + rem2 := by omega
          rw [heq]
          exact ih (findNl c ptr + 1) (rem1 - 1) rem2 _ (by omega)
      · have hz : rem1 = 0 := by omega
        subst hz
        have hp : ¬ (ptr < c.length ∧ 0 < 0) := by omega
        rw [chunkLoopF_exit hp]
        simp only [Nat.zero_add]
        exact chunkLoopF_fuel c am (f + 1) (c.length - ptr) ptr rem2 st h1
          (Nat.le_refl _)
    · have hp : ¬ (ptr < c.length ∧ 0 < rem1) := by omega
      have hp2 : ¬ (ptr < c.length ∧ 0 < rem1 + rem2) := by omega
      rw [chunkLoopF_exit hp, chunkLoopF_exit hp2]
      exact (chunkLoopF_exit (by omega) _).symm

theorem chunk_limit_ge (c : List Char) (am : List (List Char × List Char))
    (off l : Nat) (st : ParseCursor) (hl : c.length - off ≤ l) :
    parseWhatsAppStringChunk c off l am st =
      parseWhatsAppStringChunk c off (c.length - off) am st := by
  obtain ⟨a, rfl⟩ : ∃ a, l = (c.length - off) + a :=
    ⟨l - (c.length - off), by omega⟩
  unfold parseWhatsAppStringChunk
  rw [chunkLoopF_add c am (c.length - off) off (c.length - off) a st
    (Nat.le_refl _)]
  have hc := chunkLoopF_complete c am (c.length - off) off (c.length - off)
    st (Nat.le_refl _) (Nat.le_refl _)
  rw [chunkLoopF_exit (by omega)]

theorem runSlices_eq_chunk (c : List Char)
    (am : List (List Char × List Char)) :
    ∀ (ls : List Nat) (off : Nat) (st : ParseCursor),
      runSlices c am ls off st =
        parseWhatsAppStringChunk c off ls.sum am st := by
  intro ls
  induction ls with
  | nil =>
    intro off st
    simp only [runSlices, List.sum_nil]
    exact (chunkLoopF_exit (by omega) _).symm
  | cons l ls ih =>
    intro off st
    simp only [runSlices, List.sum_cons]
    rw [ih]
    unfold parseWhatsAppStringChunk
    exact (chunkLoopF_add c am (c.length - off) off l ls.sum st
      (Nat.le_refl _)).symm

/-! ### C1 -/

/-- C1 (chunk-invariance): for every transcript, every way of splitting it
into slices (a list of per-call line budgets covering the whole text, each
call resuming at the returned `nextCharIndex` with the shared cursor
state) produces exactly the same final state — the same `nextCharIndex`
and the same `ParseCursor`, hence record-for-record and field-for-field
the same accumulated message sequence (`observedMsgs`) — as one
`parseWhatsAppStringChunk` call over the whole text with any sufficiently
large (`unbounded`) line budget. -/
theorem c1_chunk_invariance :
    ∀ (c : List Char) (am : List (List Char × List Char)) (ls : List Nat)
      (L off : Nat) (st : ParseCursor),
      c.length - off ≤ ls.sum → c.length - off ≤ L →
      runSlices c am ls off st = parseWhatsAppStringChunk c off L am st := by
  intro c am ls L off st hsum hL
  rw [runSlices_eq_chunk c am ls off st, chunk_limit_ge c am off ls.sum st hsum,
    chunk_limit_ge c am off L st hL]

/-- Witness for C1: a three-line transcript split into two slices (budgets
1 and 60) equals the single call with budget 60. -/
theorem c1_chunk_invariance_witness :
    ("[1/2/23, 10:00] A: one\ntwo\n[1/2/23, 10:01] B: three".toList).length
        - 0 ≤ ([1, 60] : List Nat).sum
    ∧ ("[1/2/23, 10:00] A: one\ntwo\n[1/2/23, 10:01] B: three".toList).length
        - 0 ≤ 60
    ∧ runSlices ("[1/2/23, 10:00] A: one\ntwo\n[1/2/23, 10:01] B: three".toList)
        [] [1, 60] 0 ⟨[], none, false⟩ =
      parseWhatsAppStringChunk
        ("[1/2/23, 10:00] A: one\ntwo\n[1/2/23, 10:01] B: three".toList)
        0 60 [] ⟨[], none, false⟩ :=
  ⟨by decide, by decide,
   c1_chunk_invariance
     ("[1/2/23, 10:00] A: one\ntwo\n[1/2/23, 10:01] B: three".toList)
     [] [1, 60] 60 0 ⟨[], none, false⟩ (by decide) (by decide)⟩

/-! ### C9 -/

/-- C9: one slice always terminates (the model is total by construction),
and makes progress: whenever `offset < content.length` and the line budget
is positive, the returned `nextCharIndex` is strictly greater than
`offset` and at most `content.length + 1`; consequently the
`processInChunks` driver loop, which resumes from `nextCharIndex` while it
is short of `content.length`, reaches the end of the text within
`content.length` scheduled continuations from any starting offset. -/
theorem c9_progress_termination :
    (∀ (c : List Char) (am : List (List Char × List Char)) (off l : Nat)
      (st : ParseCursor), 0 < l → off < c.length →
      off < (parseWhatsAppStringChunk c off l am st).1 ∧
        (parseWhatsAppStringChunk c off l am st).1 ≤ c.length + 1)
    ∧ (∀ (c : List Char) (am : List (List Char × List Char))
      (fuel off : Nat) (st : ParseCursor), c.length - off ≤ fuel →
      c.length ≤ (parseNextFuel c am fuel off st).1) := by
  constructor
  · intro c am off l st hl hoff
    constructor
    · unfold parseWhatsAppStringChunk
      obtain ⟨f, hf⟩ : ∃ f, c.length - off = f + 1 :=
        ⟨c.length - off - 1, by omega⟩
      rw [hf]
      have hp : off < c.length ∧ 0 < l := ⟨hoff, hl⟩
      have hge := findNl_ge c off
      simp only [chunkLoopF, if_pos hp]
      by_cases hline : (jsTrim (subStr c off (findNl c off))).isEmpty = true
      · simp only [hline, if_true]
        have := chunkLoopF_ge c am f (findNl c off + 1) l st
        omega
      · simp only [hline, Bool.false_eq_true, if_false]
        have := chunkLoopF_ge c am f (findNl c off + 1) (l - 1)
          (processLine am (jsTrim (subStr c off (findNl c off))) st)
        omega
    · exact chunkLoopF_le c am _ off l st (by omega)
  · intro c am fuel
    induction fuel with
    | zero =>
      intro off st h
      simp only [parseNextFuel]
      omega
    | succ f ih =>
      intro off st h
      simp only [parseNextFuel]
      by_cases hr : (parseWhatsAppStringChunk c off 15000 am st).1 < c.length
      · rw [if_pos hr]
        by_cases hoff : off < c.length
        · have hprog : off < (parseWhatsAppStringChunk c off 15000 am st).1 := by
            unfold parseWhatsAppStringChunk
            obtain ⟨g, hg⟩ : ∃ g, c.length - off = g + 1 :=
              ⟨c.length - off - 1, by omega⟩
            rw [hg]
            have hp : off < c.length ∧ 0 < 15000 := ⟨hoff, by omega⟩
            have hge := findNl_ge c off
            simp only [chunkLoopF, if_pos hp]
            by_cases hline :
                (jsTrim (subStr c off (findNl c off))).isEmpty = true
            · simp only [hline, if_true]
              have := chunkLoopF_ge c am g (findNl c off + 1) 15000 st
              omega
            · simp only [hline, Bool.false_eq_true, if_false]
              have := chunkLoopF_ge c am g (findNl c off + 1) (15000 - 1)
                (processLine am (jsTrim (subStr c off (findNl c off))) st)
              omega
          exact ih _ _ (by omega)
        · have : parseWhatsAppStringChunk c off 15000 am st = (off, st) := by
            unfold parseWhatsAppStringChunk
            exact chunkLoopF_exit (by omega) _
          rw [this] at hr
          omega
      · rw [if_neg hr]
        omega

/-- Witness for C9: the progress bounds and the driver-completion bound at
a concrete transcript and offset. -/
theorem c9_progress_termination_witness :
    (0 < 5 ∧ 0 < ("a: x\nb".toList).length ∧
      0 < (parseWhatsAppStringChunk ("a: x\nb".toList) 0 5 []
        ⟨[], none, false⟩).1 ∧
      (parseWhatsAppStringChunk ("a: x\nb".toList) 0 5 []
        ⟨[], none, false⟩).1 ≤ ("a: x\nb".toList).length + 1)
    ∧ (("a: x\nb".toList).length - 0 ≤ 6 ∧
      ("a: x\nb".toList).length ≤
        (parseNextFuel ("a: x\nb".toList) [] 6 0 ⟨[], none, false⟩).1) :=
  ⟨⟨by decide, by decide,
    (c9_progress_termination.1 ("a: x\nb".toList) [] 0 5 ⟨[], none, false⟩
      (by decide) (by decide)).1,
    (c9_progress_termination.1 ("a: x\nb".toList) [] 0 5 ⟨[], none, false⟩
      (by decide) (by decide)).2⟩,
   ⟨by decide,
    c9_progress_termination.2 ("a: x\nb".toList) [] 6 0 ⟨[], none, false⟩
      (by decide)⟩⟩

/-! ### Inversion lemmas for the header matcher -/

theorem takeCount_some {p : Char → Bool} :
    ∀ {n : Nat} {s t rest : List Char}, takeCount p n s = some (t, rest) →
      t.length = n ∧ (∀ ch ∈ t, p ch = true) ∧ s = t ++ rest := by
  intro n
  induction n with
  | zero =>
    intro s t rest h
    simp only [takeCount, Option.some.injEq, Prod.mk.injEq] at h
    obtain ⟨rfl, rfl⟩ := h
    simp
  | succ k ih =>
    intro s t rest h
    cases s with
    | nil => simp [takeCount] at h
    | cons c s' =>
      simp only [takeCount] at h
      by_cases hc : p c = true
      · rw [if_pos hc] at h
        rw [Option.map_eq_some'] at h
        obtain ⟨pr, hpr, heq⟩ := h
        obtain ⟨rfl, rfl⟩ := Prod.mk.injEq .. |>.mp heq
        obtain ⟨hl, hall, hsplit⟩ := ih hpr
        refine ⟨by simp [hl], ?_, by simp [hsplit]⟩
        intro ch hch
        rcases List.mem_cons.mp hch with rfl | hch'
        · exact hc
        · exact hall ch hch'
      · rw [if_neg hc] at h
        cases h

theorem tryCountsAux_some {R : Type} {p : Char → Bool} {s : List Char}
    {k : List Char → List Char → Option R} {r : R} :
    ∀ {js : List Nat}, tryCountsAux p s k js = some r →
      ∃ j t rest, j ∈ js ∧ takeCount p j s = some (t, rest) ∧
        k t rest = some r := by
  intro js
  induction js with
  | nil => intro h; cases h
  | cons j js' ih =>
    intro h
    rw [tryCountsAux] at h
    split at h
    next pr htc =>
      split at h
      next res hk =>
        obtain rfl := (Option.some.injEq ..).mp h
        exact ⟨j, pr.1, pr.2, List.mem_cons_self _ _, by simp [htc], hk⟩
      next hk =>
        obtain ⟨j', t, rest, hj', h1, h2⟩ := ih h
        exact ⟨j', t, rest, List.mem_cons_of_mem _ hj', h1, h2⟩
    next htc =>
      obtain ⟨j', t, rest, hj', h1, h2⟩ := ih h
      exact ⟨j', t, rest, List.mem_cons_of_mem _ hj', h1, h2⟩

theorem tryOptChar_some {R : Type} {p : Char → Bool} {s : List Char}
    {k : List Char → List Char → Option R} {r : R}
    (h : tryOptChar p s k = some r) :
    (∃ ch rest, s = ch :: rest ∧ p ch = true ∧ k [ch] rest = some r) ∨
      k [] s = some r := by
  cases s with
  | nil => exact Or.inr h
  | cons c s' =>
    simp only [tryOptChar] at h
    by_cases hc : p c = true
    · rw [if_pos hc] at h
      cases hk : k [c] s' with
      | some res =>
        rw [hk] at h
        obtain rfl := (Option.some.injEq ..).mp h
        exact Or.inl ⟨c, s', rfl, hc, hk⟩
      | none =>
        rw [hk] at h
        exact Or.inr h
    · rw [if_neg hc] at h
      exact Or.inr h

theorem mhAfterBracket_digit {s0 ts a b : List Char}
    (hk : tryCountsAux isDigitCh s0
      (fun d1 s1 => (mhTail s1).map (fun r => (d1 ++ r.1, r.2.1, r.2.2)))
      [4, 3, 2, 1] = some (ts, a, b)) :
    ∃ ch rest, ts = ch :: rest ∧ isDigitCh ch = true := by
  obtain ⟨j, t, rest, hj, htc, hkk⟩ := tryCountsAux_some hk
  obtain ⟨hlen, hall, _⟩ := takeCount_some htc
  rw [Option.map_eq_some'] at hkk
  obtain ⟨q, _, hfq⟩ := hkk
  have hts : t ++ q.1 = ts := congrArg Prod.fst hfq
  have hj1 : 0 < j := by
    simp at hj
    omega
  cases t with
  | nil => simp at hlen; omega
  | cons ch t' =>
    exact ⟨ch, t' ++ q.1, by rw [← hts]; rfl,
      hall ch (List.mem_cons_self _ _)⟩

/-- A successful `MESSAGE_REGEXP` match has a timestamp capture starting
with a digit (the leading `\d{1,4}` group). -/
theorem matchHeader_ts_digit {line ts a b : List Char}
    (h : matchHeader line = some (ts, a, b)) :
    ∃ ch rest, ts = ch :: rest ∧ isDigitCh ch = true := by
  unfold matchHeader at h
  rcases tryOptChar_some h with ⟨_, _, _, _, hk⟩ | hk
  · exact mhAfterBracket_digit hk
  · exact mhAfterBracket_digit hk

theorem isJsWs_eq_false_of_digit {ch : Char} (h : isDigitCh ch = true) :
    isJsWs ch = false := by
  have h' : 48 ≤ ch.val.toNat ∧ ch.val.toNat ≤ 57 := by
    simpa [isDigitCh] using h
  simp only [isJsWs, decide_eq_false_iff_not]
  omega

theorem jsTrim_cons_ne_nil {ch : Char} {rest : List Char}
    (hch : isJsWs ch = false) : jsTrim (ch :: rest) ≠ [] := by
  unfold jsTrim
  intro h
  have h1 : (ch :: rest).dropWhile isJsWs = ch :: rest := by
    simp [List.dropWhile_cons, hch]
  rw [h1] at h
  have h3 : (ch :: rest).reverse.dropWhile isJsWs = [] :=
    List.reverse_eq_nil_iff.mp h
  have h5 : isJsWs ch = true :=
    List.dropWhile_eq_nil_iff.mp h3 ch (by simp)
  rw [hch] at h5
  cases h5

theorem buildHeaderMsg_timestamp (am : List (List Char × List Char))
    (fnO : Option (List Char)) (ts a b : List Char) :
    (buildHeaderMsg am fnO ts a b).timestamp = jsTrim ts := by
  cases fnO <;> rfl

theorem processLine_timestamps {am : List (List Char × List Char)}
    {line : List Char} {st : ParseCursor}
    (h1 : ∀ m ∈ st.closed, m.timestamp ≠ [])
    (h2 : ∀ m, st.tracker = some m → m.timestamp ≠ []) :
    (∀ m ∈ (processLine am line st).closed, m.timestamp ≠ []) ∧
    (∀ m, (processLine am line st).tracker = some m → m.timestamp ≠ []) := by
  cases hm : matchHeader line with
  | some caps =>
    obtain ⟨ts, a, b⟩ := caps
    have hts : jsTrim ts ≠ [] := by
      obtain ⟨ch, rest, hrw, hd⟩ := matchHeader_ts_digit hm
      rw [hrw]
      exact jsTrim_cons_ne_nil (isJsWs_eq_false_of_digit hd)
    constructor
    · intro m hmem
      simp only [processLine, hm, pushMsg] at hmem
      rcases List.mem_append.mp hmem with hcl | hop
      · exact h1 m hcl
      · cases hb : st.trackerPushed
        · rw [hb] at hop
          simp at hop
        · rw [hb] at hop
          simp only [if_true] at hop
          cases hcur : st.tracker with
          | none => rw [hcur] at hop; simp at hop
          | some cur =>
            rw [hcur] at hop
            simp only [Option.toList_some, List.mem_singleton] at hop
            subst hop
            exact h2 m hcur
    · intro m hm2
      simp only [processLine, hm, pushMsg, Option.some.injEq] at hm2
      rw [← hm2, buildHeaderMsg_timestamp]
      exact hts
  | none =>
    cases ht : st.tracker with
    | none =>
      simp only [processLine, hm, ht]
      exact ⟨h1, fun m hmm => nomatch hmm⟩
    | some cur =>
      have hcur := h2 cur ht
      cases hf : firstAttachment line with
      | none =>
        constructor
        · intro m hmem
          simp only [processLine, hm, ht, hf] at hmem
          exact h1 m hmem
        · intro m hm2
          simp only [processLine, hm, ht, hf, Option.map_none',
            Option.some.injEq] at hm2
          rw [← hm2]
          exact hcur
      | some raw =>
        constructor
        · intro m hmem
          simp only [processLine, hm, ht, hf] at hmem
          exact h1 m hmem
        · intro m hm2
          simp only [processLine, hm, ht, hf, Option.map_some',
            Option.some.injEq] at hm2
          rw [← hm2]
          by_cases hu : truthy (lookupUrl am (jsTrim raw)) = true <;>
            simp [hu] <;> exact hcur

theorem chunkLoopF_timestamps (c : List Char)
    (am : List (List Char × List Char)) :
    ∀ fuel ptr rem st,
      (∀ m ∈ st.closed, m.timestamp ≠ []) →
      (∀ m, st.tracker = some m → m.timestamp ≠ []) →
      (∀ m ∈ (chunkLoopF c am fuel ptr rem st).2.closed, m.timestamp ≠ []) ∧
      (∀ m, (chunkLoopF c am fuel ptr rem st).2.tracker = some m →
        m.timestamp ≠ []) := by
  intro fuel
  induction fuel with
  | zero => intro ptr rem st h1 h2; exact ⟨h1, h2⟩
  | succ f ih =>
    intro ptr rem st h1 h2
    by_cases hp : ptr < c.length ∧ 0 < rem
    · simp only [chunkLoopF, if_pos hp]
      by_cases hline : (jsTrim (subStr c ptr (findNl c ptr))).isEmpty = true
      · simp only [hline, if_true]
        exact ih (findNl c ptr + 1) rem st h1 h2
      · simp only [hline, Bool.false_eq_true, if_false]
        obtain ⟨g1, g2⟩ :=
          @processLine_timestamps am (jsTrim (subStr c ptr (findNl c ptr)))
            st h1 h2
        exact ih (findNl c ptr + 1) (rem - 1) _ g1 g2
    · rw [chunkLoopF_exit hp]
      exact ⟨h1, h2⟩

/-! ### C2 -/

/-- C2 (amended): every record emitted by `parseWhatsAppStringChunk` has a
non-empty timestamp after trimming (the capture necessarily starts with a
digit, which trimming cannot remove) — but, contrary to the original
claim, the sender may be empty after trimming: the author capture `[^:]+`
is non-empty yet can consist entirely of whitespace/hyphen characters, as
the counterexample line `1/1/11, 1:11 : hi` shows. -/
theorem c2_timestamp_nonempty_amended :
    ∀ (c : List Char) (am : List (List Char × List Char)) (off lim : Nat)
      (st : ParseCursor),
      (∀ m ∈ st.closed, m.timestamp ≠ []) →
      (∀ m, st.tracker = some m → m.timestamp ≠ []) →
      ∀ m ∈ observedMsgs (parseWhatsAppStringChunk c off lim am st).2,
        m.timestamp ≠ [] := by
  intro c am off lim st h1 h2 m hmem
  have h := chunkLoopF_timestamps c am (c.length - off) off lim st h1 h2
  unfold parseWhatsAppStringChunk at hmem
  unfold observedMsgs at hmem
  rcases List.mem_append.mp hmem with hcl | hop
  · exact h.1 m hcl
  · cases hb : (chunkLoopF c am (c.length - off) off lim st).2.trackerPushed
    · rw [hb] at hop
      simp at hop
    · rw [hb] at hop
      simp only [if_true] at hop
      cases hcur : (chunkLoopF c am (c.length - off) off lim st).2.tracker with
      | none => rw [hcur] at hop; simp at hop
      | some cur =>
        rw [hcur] at hop
        simp only [Option.toList_some, List.mem_singleton] at hop
        subst hop
        exact h.2 m hcur

/-- Witness for C2 (amended): the record parsed from a concrete header
line has a non-empty timestamp. -/
theorem c2_timestamp_nonempty_amended_witness :
    (⟨"1/2/23, 10:00".toList, "A".toList, "hi".toList, false, none⟩ :
        ChatMessage) ∈
      observedMsgs (parseWhatsAppStringChunk
        ("[1/2/23, 10:00] A: hi".toList) 0 5 [] ⟨[], none, false⟩).2
    ∧ (⟨"1/2/23, 10:00".toList, "A".toList, "hi".toList, false, none⟩ :
        ChatMessage).timestamp ≠ [] :=
  ⟨by decide,
   c2_timestamp_nonempty_amended ("[1/2/23, 10:00] A: hi".toList) [] 0 5
     ⟨[], none, false⟩ (by simp) (by simp)
     ⟨"1/2/23, 10:00".toList, "A".toList, "hi".toList, false, none⟩
     (by decide)⟩
